import Mathlib

/-!
# Verification of the `fsm` library (src/fsm.py)

A shallow embedding of the weighted-command finite-state-machine driver in
`src/fsm.py`, together with theorems settling the frozen claims about it.

Modelling conventions:
* Python floats are modelled as rationals (`ℚ`); the random draw
  `random.random()` is a parameter `r` with `0 ≤ r < 1`.
* Python dicts are modelled as association lists in insertion order
  (`List (String × _)`); `dict[k] = v` is `updateAssoc`, which matches
  CPython's behaviour of updating the value in place while keeping the
  key's original iteration position.
* Raised exceptions are modelled by `Except Err _`; the constructors of
  `Err` are named after the Python exception classes raised in `fsm.py`.
* Collaborator (user-supplied) code — `Command` bodies and hook bodies —
  is out of the engine's scope (spec §1, §4.1); where the engine calls it,
  the embedding takes it as an explicit functional parameter.
-/

set_option autoImplicit false

namespace Fsm

/-- The Python exception classes raised by `fsm.py` (or by the interpreter
itself, for `AttributeError`). `doesNotFound` is `State.DoesNotFound`,
`notInitializedError` is `NotInitializedError`. -/
inductive Err where
  | valueError
  | keyError
  | doesNotFound
  | notInitializedError
  | attributeError
  deriving DecidableEq, Repr

/-- Association-list lookup: Python `m[k]` / `k in m` on a dict modelled in
insertion order. -/
def lookupAssoc {α : Type} : List (String × α) → String → Option α
  | [], _ => none
  | (k, v) :: rest, key => if k = key then some v else lookupAssoc rest key

/-- Association-list update: Python `m[k] = v`. An existing key keeps its
iteration position and gets the new value (CPython dict semantics); a new
key is appended. -/
def updateAssoc {α : Type} : List (String × α) → String → α → List (String × α)
  | [], key, v => [(key, v)]
  | (k, w) :: rest, key, v =>
    if k = key then (key, v) :: rest else (k, w) :: updateAssoc rest key v

/-! ## `State._set_weight` / weighted selection (`State.choose`)

`_set_weight` walks `self.weight`, checks each key is an imported command,
accumulates `self._weight_sum`, and copies `self.weight[wname]` onto
`self.commands[wname].weight`.  Consequently `choose`, which walks
`self.weight` and reads `self.commands[wname].weight`, reads exactly the
values of the weight table, in the table's iteration order — the same
order `_weight_sum` was accumulated in.  We therefore model both the sum
and the selection walk directly over the weight table. -/

/-- `self._weight_sum` as accumulated by `State._set_weight`: the sum of the
weight table's values, in table order. -/
def totalWeight (wt : List (String × ℚ)) : ℚ :=
  wt.foldl (fun s p => s + p.2) 0

/-- The selection walk of `State.choose` (src/fsm.py lines 144-150): given
the draw `a` and the running sum `sum` (initially `0`), return the first
entry `wname` with `a >= sum and a < sum + weight`; fall through to
`raise ValueError` (`none`) otherwise. -/
def chooseFrom : List (String × ℚ) → ℚ → ℚ → Option String
  | [], _, _ => none
  | (wname, w) :: rest, a, sum =>
    if sum ≤ a ∧ a < sum + w then some wname else chooseFrom rest a (sum + w)

/-- `State.choose`: draw `a = random.random() * self._weight_sum` (with
`r = random.random()`), then walk the table. `none` models the final
`raise ValueError`. -/
def choose (wt : List (String × ℚ)) (r : ℚ) : Option String :=
  chooseFrom wt (r * totalWeight wt) 0

/-! ## Command classes and `State._import_commands` -/

/-- Python `str.lower()` on a class `__name__` (an ASCII identifier):
lowercase each character. -/
def pyLower (s : String) : String := ⟨s.data.map Char.toLower⟩

/-- A Python class object passed to `_import_commands`: its `__name__` and
whether `issubclass(cls, Command)` holds. -/
structure CommandClass where
  cname : String
  isCommand : Bool
  deriving DecidableEq, Repr

/-- The loop of `State._import_commands` (src/fsm.py lines 120-124): for
each class, `raise KeyError` unless it is a `Command` subclass, otherwise
instantiate and register under `cls.__name__.lower()` — a duplicate name
silently overwrites the earlier entry (`self.commands[cname] = a(...)`). -/
def importCommandsAux :
    List CommandClass → List (String × CommandClass) →
    Except Err (List (String × CommandClass))
  | [], acc => .ok acc
  | c :: rest, acc =>
    if c.isCommand then importCommandsAux rest (updateAssoc acc (pyLower c.cname) c)
    else .error .keyError

/-- The loop of `State._set_weight` (src/fsm.py lines 113-117): for each
key of the weight table, `raise ValueError` if it is not an imported
command name; otherwise add its weight into `self._weight_sum` (the copy
onto `self.commands[wname].weight` duplicates the table value, see above). -/
def setWeightAux :
    List (String × ℚ) → List (String × CommandClass) → ℚ → Except Err ℚ
  | [], _, s => .ok s
  | (wname, w) :: rest, cmds, s =>
    match lookupAssoc cmds wname with
    | none => .error .valueError
    | some _ => setWeightAux rest cmds (s + w)

/-- `State._import_commands` followed by the `_set_weight` call it ends
with: returns the commands registry and the accumulated weight sum, or the
first exception raised. -/
def importCommands (classes : List CommandClass) (wt : List (String × ℚ)) :
    Except Err (List (String × CommandClass) × ℚ) :=
  match importCommandsAux classes [] with
  | .error e => .error e
  | .ok cmds =>
    match setWeightAux wt cmds 0 with
    | .error e => .error e
    | .ok s => .ok (cmds, s)

/-! ## States, the DFA registry and the step protocol -/

/-- The behaviour-relevant content of a `State` subclass: its class-level
`weight` table, and which hooks it defines.  `pre` lists the command names
`c` with a `before_c` method.  `post` maps each command name `c` with an
`after_c` method to that hook's action: `some target` if the hook body
calls `self.switch_state_to(target)`, `none` if it only has external side
effects (spec §4.2: the post-hook is the only place a switch is
requested; external side effects are out of the engine's scope). -/
structure StateSpec where
  weight : List (String × ℚ)
  pre : List String
  post : List (String × Option String)
  deriving DecidableEq, Repr

/-- A Python `State` subclass object passed to `DFA.add_state`: its
`__name__`, whether `issubclass(cls, State)` holds, and the behaviour of
its instances. -/
structure StateClass where
  sname : String
  isState : Bool
  spec : StateSpec
  deriving DecidableEq, Repr

/-- A constructed `State` instance: its behaviour, its `self.commands`
registry and its `self._weight_sum`. -/
structure StateInst where
  spec : StateSpec
  commands : List (String × CommandClass)
  weightSum : ℚ
  deriving DecidableEq, Repr

/-- The `DFA` object.  Python object identity of `State` instances matters
for claim C10, so instances live in `pool` keyed by an allocation counter
`nextId`; `states` is `self.states` (name → instance), `state` is
`self.state` (the current-state reference, `none` initially), `ret` is
`self._state_ret` (the accumulator, modelled as `Nat` since the engine
only threads it through), `nexec`/`duration` the stop-condition fields. -/
structure Dfa where
  nexec : Option Nat
  duration : Option ℚ
  states : List (String × Nat)
  pool : List (Nat × StateInst)
  state : Option Nat
  nextId : Nat
  ret : Nat
  deriving DecidableEq, Repr

/-- Instance lookup in the allocation pool (following the reference stored
in `self.states` or `self.state`). -/
def lookupPool : List (Nat × StateInst) → Nat → Option StateInst
  | [], _ => none
  | (k, v) :: rest, key => if k = key then some v else lookupPool rest key

/-- `DFA.add_state` (src/fsm.py lines 180-196): `raise ValueError` unless
the class is a `State` subclass; construct an instance, register it under
`cls.__name__.lower()` (silently rebinding any existing entry), import the
commands into it; if `is_start` is set, assign it as the current state.
On an import error the exception propagates (the partially-updated
registry is not observed by any claim, so the error branch discards it). -/
def addState (d : Dfa) (cls : StateClass) (cmds : List CommandClass)
    (isStart : Bool) : Except Err Dfa :=
  if ¬ cls.isState then .error .valueError
  else
    match importCommands cmds cls.spec.weight with
    | .error e => .error e
    | .ok (cmdMap, wsum) =>
      let inst : StateInst := ⟨cls.spec, cmdMap, wsum⟩
      let sid := d.nextId
      .ok { d with
              states := updateAssoc d.states (pyLower cls.sname) sid
              pool := d.pool ++ [(sid, inst)]
              nextId := sid + 1
              state := if isStart then some sid else d.state }

/-- `State.switch_state_to` (src/fsm.py lines 127-134): `raise
self.DoesNotFound` if the name is not in `self.dfa.states`, otherwise
reassign `self.dfa.state`.  The exception is raised before the
assignment, so on failure the DFA is unchanged. -/
def switchStateTo (d : Dfa) (name : String) : Except Err Dfa :=
  match lookupAssoc d.states name with
  | none => .error .doesNotFound
  | some sid => .ok { d with state := some sid }

/-- The weight table the next `_next_step` call will select from:
`self.state.choose()` walks the current state's `weight`. -/
def selectedTable (d : Dfa) : Option (List (String × ℚ)) :=
  match d.state with
  | none => none
  | some sid =>
    match lookupPool d.pool sid with
    | none => none
    | some s => some s.spec.weight

/-- `DFA._next_step` (src/fsm.py lines 225-235).
Step protocol, in source order:
1. `cname = self.state.choose()` — selection from the step-start state's
   weight table (error if `self.state` is `None` or selection falls
   through);
2. `before_<cname>` hook, if defined on the step-start state (`attr_list
   = dir(self.state)` is captured here) — collaborator code with no
   engine-visible effect, modelled as a no-op (a pre-hook is not a place
   a switch is requested, spec §4.2);
3. `self._state_ret = self.state.commands[cname].do(self._state_ret)` —
   the command invocation; its result is `exec cname ret` where `exec` is
   the collaborator-supplied behaviour of the dispatched method (claim C1
   examines the `do` vs `execute` dispatch itself);
4. `after_<cname>` hook, if defined: membership is tested against the
   step-start `attr_list`, and `getattr(self.state, ...)` re-reads
   `self.state`, which steps 2-3 (as modelled) leave unchanged, so the
   hook invoked is the step-start state's; its body may call
   `switch_state_to`. -/
def nextStep (exec : String → Nat → Nat) (d : Dfa) (r : ℚ) : Except Err Dfa :=
  match d.state with
  | none => .error .attributeError
  | some sid =>
    match lookupPool d.pool sid with
    | none => .error .keyError
    | some s0 =>
      match choose s0.spec.weight r with
      | none => .error .valueError
      | some cname =>
        let d2 := { d with ret := exec cname d.ret }
        match lookupAssoc s0.spec.post cname with
        | none => .ok d2
        | some none => .ok d2
        | some (some target) => switchStateTo d2 target

/-! ## `DFA.drive_machine` and the two run strategies -/

/-- Which private driver `drive_machine` dispatches to. -/
inductive Strategy where
  | counter
  | timeB
  deriving DecidableEq, Repr

/-- The checks and dispatch of `DFA.drive_machine` (src/fsm.py lines
203-211): `raise ValueError` if both `nexec` and `duration` are `None`;
then `raise NotInitializedError` if no current state; then run
`_drive_counter_machine` iff `duration` is `None`, else
`_drive_time_machine`.  Both error branches return before any step. -/
def driveMachineCheck (d : Dfa) : Except Err Strategy :=
  if d.nexec = none ∧ d.duration = none then .error .valueError
  else if d.state = none then .error .notInitializedError
  else if d.duration = none then .ok .counter else .ok .timeB

/-- `DFA._drive_counter_machine` (src/fsm.py lines 219-223):
`count = 0; while count < self.nexec: self._next_step(); count += 1`.
The loop condition re-reads `self.nexec` on every iteration.  The body
`self._next_step()` runs collaborator hooks which hold `self.dfa` and may
mutate any of its fields, so the step is an explicit parameter
`step : Dfa → Dfa` (collaborator faults, which would abort the loop, are
out of scope here — spec §7).  `fuel` bounds the simulation: `none` means
the loop was not finished within `fuel` iterations (or `self.nexec` was
`None`, a configuration `drive_machine` never passes to this loop);
`some (d, count)` is the machine state and final counter at exit. -/
def driveCounterAux (step : Dfa → Dfa) :
    Nat → Dfa → Nat → Option (Dfa × Nat)
  | 0, d, count =>
    match d.nexec with
    | none => none
    | some n => if count < n then none else some (d, count)
  | fuel + 1, d, count =>
    match d.nexec with
    | none => none
    | some n =>
      if count < n then driveCounterAux step fuel (step d) (count + 1)
      else some (d, count)

/-- `DFA._drive_time_machine` (src/fsm.py lines 213-217):
`end_at = begin_at = time.time(); while end_at - begin_at < self.duration:
self._next_step(); end_at = time.time()`.  Time is modelled by the list
`durs` of wall-clock durations the successive `_next_step()` calls take,
so `end_at - begin_at` after `k` steps is the sum of the first `k`
durations; `t` is the current elapsed time, `count` the number of steps
taken.  `none` means `durs` was too short to reach the stop condition;
`some (t, count)` gives the elapsed time and step count at exit.  The
elapsed time is re-checked only between steps, exactly as in the source. -/
def driveTimeAux (dur : ℚ) : List ℚ → ℚ → Nat → Option (ℚ × Nat)
  | [], t, count => if t < dur then none else some (t, count)
  | d :: rest, t, count =>
    if t < dur then driveTimeAux dur rest (t + d) (count + 1)
    else some (t, count)

/-! ## Method dispatch for the command invocation (claim C1)

`Command` (src/fsm.py lines 70-85) defines `__init__` and `execute`; its
docstring instructs subclasses to implement `execute`.  `DFA._next_step`
line 232 invokes `self.state.commands[cname].do(...)`.  We model Python
attribute lookup on a command instance by the list of method names its
class hierarchy defines. -/

/-- The methods the `Command` base class defines (besides `__init__`):
only `execute` (src/fsm.py lines 78-85). -/
def commandBaseMethods : List String := ["execute"]

/-- The methods of a user command subclass that, as the documentation
instructs, overrides `execute` (and possibly adds others). -/
def userCommandMethods (overrides : List String) : List String :=
  overrides ++ commandBaseMethods

/-- Python attribute access `obj.m(...)`: `AttributeError` when no class
in the hierarchy defines `m`. -/
def callMethod (methods : List String) (m : String) : Except Err Unit :=
  if m ∈ methods then .ok () else .error .attributeError

/-- The command invocation of `DFA._next_step` line 232, which accesses
the attribute `do` on the chosen command instance. -/
def nextStepCommandCall (overrides : List String) : Except Err Unit :=
  callMethod (userCommandMethods overrides) "do"

/-! ## Concrete fixtures used by witnesses and counterexamples -/

/-- A user command class `C` (a proper `Command` subclass). -/
def cmdC : CommandClass := ⟨"C", true⟩

/-- A state behaviour with one command `c` of weight 1 and no hooks. -/
def specOne : StateSpec := ⟨[("c", 1)], [], []⟩

/-- The instance `add_state` builds from `specOne` and `cmdC`. -/
def instOne : StateInst := ⟨specOne, [("c", cmdC)], 1⟩

/-- A DFA with the single state `s1` (current), `nexec = 2`, no duration. -/
def dfaOne : Dfa := ⟨some 2, none, [("s1", 0)], [(0, instOne)], some 0, 1, 0⟩

/-- A DFA with both `nexec` and `duration` configured and a current state. -/
def dfaBoth : Dfa := ⟨some 2, some 5, [("s1", 0)], [(0, instOne)], some 0, 1, 0⟩

/-- A DFA with neither `nexec` nor `duration` configured. -/
def dfaNeither : Dfa := ⟨none, none, [], [], none, 0, 0⟩

/-- A DFA with `nexec` configured but no current state. -/
def dfaNoStart : Dfa := ⟨some 1, none, [], [], none, 0, 0⟩

/-- A collaborator step that zeroes `self.dfa.nexec` (a hook holds
`self.dfa` and may assign its fields). -/
def stepKillCount (d : Dfa) : Dfa := { d with nexec := some 0 }

/-- A command class `Dup`: lowercased name `dup`. -/
def cmdDupA : CommandClass := ⟨"Dup", true⟩

/-- A command class `DUP`: lowercased name also `dup`. -/
def cmdDupB : CommandClass := ⟨"DUP", true⟩

/-- A user command class `D`. -/
def cmdD : CommandClass := ⟨"D", true⟩

/-- State behaviour `S1`: one command `c` (weight 1) whose post-hook
`after_c` calls `switch_state_to("s2")`. -/
def specS1 : StateSpec := ⟨[("c", 1)], [], [("c", some "s2")]⟩

/-- State behaviour `S2`: one command `d` (weight 1), no hooks. -/
def specS2 : StateSpec := ⟨[("d", 1)], [], []⟩

/-- The constructed instance of `S1`. -/
def instS1 : StateInst := ⟨specS1, [("c", cmdC)], 1⟩

/-- The constructed instance of `S2`. -/
def instS2 : StateInst := ⟨specS2, [("d", cmdD)], 1⟩

/-- A DFA with states `s1` (current) and `s2`. -/
def dfaTwo : Dfa :=
  ⟨some 2, none, [("s1", 0), ("s2", 1)], [(0, instS1), (1, instS2)], some 0, 2, 0⟩

/-- A collaborator command behaviour: increment the accumulator. -/
def execBump : String → Nat → Nat := fun _ n => n + 1

/-- The state class `S1` (a proper `State` subclass) with behaviour
`specOne`. -/
def stateClassS1 : StateClass := ⟨"S1", true, specOne⟩

/-! ## Helper lemmas -/

theorem totalWeight_foldl (wt : List (String × ℚ)) (init : ℚ) :
    wt.foldl (fun s p => s + p.2) init = init + totalWeight wt := by
  induction wt generalizing init with
  | nil => simp [totalWeight]
  | cons p rest ih =>
    simp only [totalWeight, List.foldl_cons] at *
    rw [ih (init + p.2), ih (0 + p.2)]
    ring

theorem totalWeight_cons (n : String) (w : ℚ) (rest : List (String × ℚ)) :
    totalWeight ((n, w) :: rest) = w + totalWeight rest := by
  rw [show totalWeight ((n, w) :: rest)
        = rest.foldl (fun s p => s + p.2) (0 + w) from rfl,
      totalWeight_foldl]
  ring

theorem totalWeight_nonneg (wt : List (String × ℚ))
    (h : ∀ p ∈ wt, 0 ≤ p.2) : 0 ≤ totalWeight wt := by
  induction wt with
  | nil => simp [totalWeight]
  | cons p rest ih =>
    rw [show p = (p.1, p.2) from rfl, totalWeight_cons]
    have h1 : 0 ≤ p.2 := h p (List.mem_cons_self _ _)
    have h2 : 0 ≤ totalWeight rest := ih fun q hq => h q (List.mem_cons_of_mem _ hq)
    linarith

theorem weights_zero_of_total_zero (wt : List (String × ℚ))
    (hnn : ∀ p ∈ wt, 0 ≤ p.2) (h0 : totalWeight wt = 0) :
    ∀ p ∈ wt, p.2 = 0 := by
  induction wt with
  | nil => intro p hp; cases hp
  | cons q rest ih =>
    rw [show q = (q.1, q.2) from rfl, totalWeight_cons] at h0
    have hq : 0 ≤ q.2 := hnn q (List.mem_cons_self _ _)
    have hrestnn : ∀ p ∈ rest, 0 ≤ p.2 := fun p hp => hnn p (List.mem_cons_of_mem _ hp)
    have hrest : 0 ≤ totalWeight rest := totalWeight_nonneg rest hrestnn
    intro p hp
    rcases List.mem_cons.mp hp with h | h
    · rw [h]; linarith
    · exact ih hrestnn (by linarith) p h

theorem chooseFrom_covers :
    ∀ (wt : List (String × ℚ)) (a s : ℚ), s ≤ a → a < s + totalWeight wt →
    ∃ k, chooseFrom wt a s = some k := by
  intro wt
  induction wt with
  | nil =>
    intro a s h1 h2
    rw [totalWeight] at h2
    simp only [List.foldl_nil] at h2
    linarith
  | cons p rest ih =>
    intro a s h1 h2
    obtain ⟨n, w⟩ := p
    rw [totalWeight_cons] at h2
    by_cases hc : s ≤ a ∧ a < s + w
    · exact ⟨n, by simp [chooseFrom, hc]⟩
    · have hge : s + w ≤ a := by
        rcases not_and_or.mp hc with h | h
        · exact absurd h1 h
        · linarith [not_lt.mp h]
      have ⟨k, hk⟩ := ih a (s + w) hge (by linarith)
      exact ⟨k, by simp [chooseFrom, hc, hk]⟩

theorem chooseFrom_none_of_all_zero (wt : List (String × ℚ))
    (hz : ∀ p ∈ wt, p.2 = 0) : ∀ a s, chooseFrom wt a s = none := by
  induction wt with
  | nil => intro a s; rfl
  | cons p rest ih =>
    intro a s
    obtain ⟨n, w⟩ := p
    have hw : w = 0 := hz (n, w) (List.mem_cons_self _ _)
    rw [chooseFrom, if_neg, ih fun q hq => hz q (List.mem_cons_of_mem _ hq)]
    rintro ⟨h1, h2⟩
    rw [hw] at h2
    linarith

/-! ## Claims -/

/-- Claim C4: for a weight table that is non-empty with strictly positive
total weight, and a draw `random.random() = r` with `0 ≤ r < 1` (so the
scaled draw `a = r * total_weight` lies in `[0, total_weight)`),
`State.choose` returns some key of the table and never reaches its final
`raise ValueError`: the intervals are half-open, the running sum is
accumulated in the table's iteration order — the same order `_set_weight`
used for `_weight_sum` — and the last interval covers the tail. -/
theorem choose_total_covers (wt : List (String × ℚ)) (r : ℚ)
    (hne : wt ≠ []) (hpos : 0 < totalWeight wt)
    (hr0 : 0 ≤ r) (hr1 : r < 1) :
    ∃ k, choose wt r = some k := by
  have ha0 : 0 ≤ r * totalWeight wt := mul_nonneg hr0 hpos.le
  have ha1 : r * totalWeight wt < totalWeight wt := by
    calc r * totalWeight wt < 1 * totalWeight wt :=
          mul_lt_mul_of_pos_right hr1 hpos
      _ = totalWeight wt := one_mul _
  exact chooseFrom_covers wt (r * totalWeight wt) 0 ha0 (by linarith)

theorem choose_total_covers_witness :
    ∃ k, choose [("x", (1 : ℚ))] (1 / 2) = some k :=
  choose_total_covers [("x", 1)] (1 / 2) (by simp)
    (by rw [totalWeight_cons]; norm_num [totalWeight])
    (by norm_num) (by norm_num)

/-- Claim C6: on a state whose weight table is empty, or whose weights
(non-negative, per the data model) total zero, `State.choose` always
raises `ValueError` (`none`): the draw is `r * 0 = 0`, the walk matches no
half-open interval, and the loop — bounded by the table — falls through
to `raise ValueError`; it never loops forever and never returns a default. -/
theorem choose_zero_weight_fails (wt : List (String × ℚ)) (r : ℚ)
    (h : wt = [] ∨ ((∀ p ∈ wt, 0 ≤ p.2) ∧ totalWeight wt = 0)) :
    choose wt r = none := by
  have hz : ∀ p ∈ wt, p.2 = 0 := by
    rcases h with h | ⟨hnn, h0⟩
    · subst h; intro p hp; cases hp
    · exact weights_zero_of_total_zero wt hnn h0
  exact chooseFrom_none_of_all_zero wt hz _ _

theorem choose_zero_weight_fails_witness :
    choose [("x", (0 : ℚ)), ("y", 0)] (1 / 3) = none ∧
      choose ([] : List (String × ℚ)) (2 / 3) = none :=
  ⟨choose_zero_weight_fails _ _
     (Or.inr ⟨by simp, by rw [totalWeight_cons, totalWeight_cons]; norm_num [totalWeight]⟩),
   choose_zero_weight_fails _ _ (Or.inl rfl)⟩

/-- Claim C1 (code bug): the step protocol is pre-hook, then the command
invocation, then post-hook — but the invocation in `DFA._next_step` line
232 accesses the attribute `do` on the command instance, while the
`Command` base class defines (and documents subclasses must implement)
only `execute`.  For a command subclass that overrides `execute` as
documented, the engine's call therefore raises `AttributeError` instead
of invoking `execute` with the accumulator. -/
theorem nextStep_command_call_is_do_not_execute :
    nextStepCommandCall ["execute"] = .error .attributeError := by
  rfl

/-- Claim C2 (corrected): `drive_machine` fails with `ValueError` before
any step when neither `nexec` nor `duration` is configured, and with
`NotInitializedError` before any step when no current state is assigned —
but when BOTH bounds are configured (and a current state exists) it does
not fail: the duration-bounded strategy is silently selected
(`if self.duration is None` picks `_drive_time_machine`). -/
theorem drive_config_checks (d : Dfa) :
    (d.nexec = none → d.duration = none →
       driveMachineCheck d = .error .valueError) ∧
    (¬(d.nexec = none ∧ d.duration = none) → d.state = none →
       driveMachineCheck d = .error .notInitializedError) ∧
    (∀ n q sid, d.nexec = some n → d.duration = some q → d.state = some sid →
       driveMachineCheck d = .ok .timeB) := by
  refine ⟨?_, ?_, ?_⟩
  · intro h1 h2; simp [driveMachineCheck, h1, h2]
  · intro h1 h2; simp [driveMachineCheck, h1, h2]
  · intro n q sid h1 h2 h3; simp [driveMachineCheck, h1, h2, h3]

theorem drive_config_checks_witness :
    driveMachineCheck dfaNeither = .error .valueError ∧
      driveMachineCheck dfaNoStart = .error .notInitializedError ∧
      driveMachineCheck dfaBoth = .ok .timeB :=
  ⟨(drive_config_checks dfaNeither).1 rfl rfl,
   (drive_config_checks dfaNoStart).2.1 (by simp [dfaNoStart]) rfl,
   (drive_config_checks dfaBoth).2.2 2 5 0 rfl rfl rfl⟩

/-- Claim C2, counterexample to the claim as stated: with both a max
execution count and a max duration configured (and a start state), the
claim says `drive_machine` fails with a configuration error before any
step — but it selects the duration-bounded strategy and runs. -/
theorem drive_both_bounds_does_not_fail :
    driveMachineCheck dfaBoth = .ok .timeB := by
  rfl

/-- Claim C7: `switch_state_to` on a name absent from the registry raises
`State.DoesNotFound` before the assignment, leaving the current-state
reference unchanged; on a registered name it reassigns the current-state
reference to the named state. -/
theorem switch_state_behavior (d : Dfa) (name : String) :
    (lookupAssoc d.states name = none →
       switchStateTo d name = .error .doesNotFound) ∧
    (∀ sid, lookupAssoc d.states name = some sid →
       switchStateTo d name = .ok { d with state := some sid }) := by
  constructor
  · intro h; simp [switchStateTo, h]
  · intro sid h; simp [switchStateTo, h]

theorem switch_state_behavior_witness :
    switchStateTo dfaOne "nope" = .error .doesNotFound ∧
      switchStateTo dfaOne "s1" = .ok { dfaOne with state := some 0 } :=
  ⟨(switch_state_behavior dfaOne "nope").1 (by decide),
   (switch_state_behavior dfaOne "s1").2 0 (by decide)⟩

theorem driveCounter_exact (step : Dfa → Dfa)
    (hpres : ∀ x, (step x).nexec = x.nexec) (n : Nat) :
    ∀ fuel count d, d.nexec = some n → count ≤ n → n - count ≤ fuel →
    ∃ d', driveCounterAux step fuel d count = some (d', n) := by
  intro fuel
  induction fuel with
  | zero =>
    intro count d hn hle hfuel
    have hc : count = n := le_antisymm hle (by omega)
    refine ⟨d, ?_⟩
    rw [driveCounterAux, hn]
    simp [hc]
  | succ f ih =>
    intro count d hn hle hfuel
    by_cases hlt : count < n
    · have hn' : (step d).nexec = some n := by rw [hpres, hn]
      obtain ⟨d', hd'⟩ := ih (count + 1) (step d) hn' hlt (by omega)
      refine ⟨d', ?_⟩
      simp only [driveCounterAux, hn]
      rw [if_pos hlt]
      exact hd'
    · have hc : count = n := le_antisymm hle (not_lt.mp hlt)
      refine ⟨d, ?_⟩
      simp only [driveCounterAux, hn]
      rw [if_neg hlt, hc]

/-- Claim C3 (corrected): when no step mutates `self.nexec`, the
count-bounded loop executes exactly N steps (the exit counter equals N,
having been incremented once per step from 0), regardless of elapsed time
— but N is NOT latched before the loop: `while count < self.nexec`
re-reads `self.nexec` on every iteration, so a hook mutating it mid-run
does change the number of steps executed (see the counterexample). -/
theorem drive_counter_exact_steps (step : Dfa → Dfa)
    (hpres : ∀ x, (step x).nexec = x.nexec)
    (d : Dfa) (n fuel : Nat) (hn : d.nexec = some n) (hfuel : n ≤ fuel) :
    ∃ d', driveCounterAux step fuel d 0 = some (d', n) :=
  driveCounter_exact step hpres n fuel 0 d hn (Nat.zero_le n) (by omega)

theorem drive_counter_exact_steps_witness :
    ∃ d', driveCounterAux id 2 dfaOne 0 = some (d', 2) :=
  drive_counter_exact_steps id (fun _ => rfl) dfaOne 2 2 rfl (by decide)

/-- Claim C3, counterexample to the claim as stated: with `nexec = 2` the
claim says the run executes exactly 2 steps even if a step mutates the
configured count — but after the first step sets `nexec` to 0 the
re-read loop condition `count < self.nexec` fails and the run stops after
exactly 1 step. -/
theorem drive_counter_mutation_changes_steps :
    driveCounterAux stepKillCount 10 dfaOne 0
      = some ({ dfaOne with nexec := some 0 }, 1) ∧ (1 : Nat) ≠ 2 := by
  constructor
  · rfl
  · decide

theorem driveTime_bound (D dmax : ℚ) :
    ∀ (durs : List ℚ) (t : ℚ) (count : Nat) (tf : ℚ) (n : Nat),
    (∀ x ∈ durs, x ≤ dmax) → driveTimeAux D durs t count = some (tf, n) →
    D ≤ tf ∧ (t < D → tf < D + dmax ∧ count < n) ∧
      (¬ t < D → tf = t ∧ n = count) := by
  intro durs
  induction durs with
  | nil =>
    intro t count tf n _ hrun
    rw [driveTimeAux] at hrun
    by_cases ht : t < D
    · simp [ht] at hrun
    · rw [if_neg ht] at hrun
      obtain ⟨htf, hn⟩ : tf = t ∧ n = count := by
        have := Option.some.inj hrun
        exact ⟨(Prod.mk.injEq _ _ _ _ ▸ this).1.symm,
               (Prod.mk.injEq _ _ _ _ ▸ this).2.symm⟩
      subst htf; subst hn
      exact ⟨not_lt.mp ht, fun h => absurd h ht, fun _ => ⟨rfl, rfl⟩⟩
  | cons d rest ih =>
    intro t count tf n hd hrun
    rw [driveTimeAux] at hrun
    by_cases ht : t < D
    · rw [if_pos ht] at hrun
      have hrest := ih (t + d) (count + 1) tf n
        (fun x hx => hd x (List.mem_cons_of_mem _ hx)) hrun
      refine ⟨hrest.1, fun _ => ?_, fun h => absurd ht h⟩
      by_cases ht2 : t + d < D
      · have := hrest.2.1 ht2
        exact ⟨this.1, by omega⟩
      · have := hrest.2.2 ht2
        have hdle : d ≤ dmax := hd d (List.mem_cons_self _ _)
        refine ⟨?_, by omega⟩
        rw [this.1]
        linarith
    · rw [if_neg ht] at hrun
      obtain ⟨htf, hn⟩ : tf = t ∧ n = count := by
        have := Option.some.inj hrun
        exact ⟨(Prod.mk.injEq _ _ _ _ ▸ this).1.symm,
               (Prod.mk.injEq _ _ _ _ ▸ this).2.symm⟩
      subst htf; subst hn
      exact ⟨not_lt.mp ht, fun h => absurd h ht, fun _ => ⟨rfl, rfl⟩⟩

/-- Claim C9: the duration-bounded loop records a start timestamp and
repeats steps while elapsed time is strictly less than the configured
duration D, re-checking the clock only after each completed step (a step
once begun runs to completion — the check sits between iterations).
Modelling the successive steps' wall-clock costs by `durs` (each at most
`dmax`): any terminating run with `D > 0` performs at least one step, and
its total elapsed time is at least D and overruns D by less than one
step's worst-case duration. -/
theorem drive_time_bounds (D dmax tf : ℚ) (durs : List ℚ) (n : Nat)
    (hD : 0 < D) (hdm : ∀ x ∈ durs, x ≤ dmax)
    (hrun : driveTimeAux D durs 0 0 = some (tf, n)) :
    D ≤ tf ∧ tf < D + dmax ∧ 1 ≤ n := by
  have h := driveTime_bound D dmax durs 0 0 tf n hdm hrun
  have h2 := h.2.1 hD
  exact ⟨h.1, h2.1, h2.2⟩

theorem drive_time_bounds_witness :
    (1 : ℚ) ≤ 2 ∧ (2 : ℚ) < 1 + 2 ∧ (1 : Nat) ≤ 1 :=
  drive_time_bounds 1 2 2 [2] 1 (by norm_num) (by norm_num)
    (by norm_num [driveTimeAux])

theorem importCommandsAux_bad (classes : List CommandClass) :
    ∀ acc, (∃ c ∈ classes, c.isCommand = false) →
    importCommandsAux classes acc = .error .keyError := by
  induction classes with
  | nil => rintro acc ⟨c, hc, _⟩; cases hc
  | cons c rest ih =>
    rintro acc ⟨w, hw, hwf⟩
    by_cases hc : c.isCommand
    · rw [importCommandsAux, if_pos hc]
      apply ih
      rcases List.mem_cons.mp hw with h | h
      · subst h; rw [hwf] at hc; cases hc
      · exact ⟨w, h, hwf⟩
    · rw [importCommandsAux, if_neg hc]

theorem importCommandsAux_ok (classes : List CommandClass) :
    ∀ acc, (∀ c ∈ classes, c.isCommand = true) →
    ∃ m, importCommandsAux classes acc = .ok m := by
  induction classes with
  | nil => intro acc _; exact ⟨acc, rfl⟩
  | cons c rest ih =>
    intro acc h
    rw [importCommandsAux, if_pos (h c (List.mem_cons_self _ _))]
    exact ih _ fun x hx => h x (List.mem_cons_of_mem _ hx)

theorem setWeightAux_missing (wt : List (String × ℚ)) :
    ∀ (m : List (String × CommandClass)) (s : ℚ),
    (∃ p ∈ wt, lookupAssoc m p.1 = none) →
    setWeightAux wt m s = .error .valueError := by
  induction wt with
  | nil => rintro m s ⟨p, hp, _⟩; cases hp
  | cons q rest ih =>
    rintro m s ⟨p, hp, hpf⟩
    obtain ⟨k, w⟩ := q
    cases hlk : lookupAssoc m k with
    | none => simp only [setWeightAux, hlk]
    | some c =>
      simp only [setWeightAux, hlk]
      apply ih
      rcases List.mem_cons.mp hp with h | h
      · subst h; rw [hpf] at hlk; cases hlk
      · exact ⟨p, h, hpf⟩

/-- Claim C5 (corrected): `_import_commands` raises (`KeyError`) during
registration when an entry is not a `Command` subclass, and the
`_set_weight` it ends with raises `ValueError` during registration when a
weight-table key is not among the imported command names — but two
entries whose lowercased names collide do NOT raise a duplicate-name
error: `self.commands[cname] = a(...)` silently overwrites, the later
entry winning (see the counterexample). -/
theorem import_validation (classes : List CommandClass)
    (wt : List (String × ℚ)) :
    ((∃ c ∈ classes, c.isCommand = false) →
       importCommands classes wt = .error .keyError) ∧
    ((∀ c ∈ classes, c.isCommand = true) →
       ∃ m, importCommandsAux classes [] = .ok m) ∧
    (∀ m, importCommandsAux classes [] = .ok m →
       (∃ p ∈ wt, lookupAssoc m p.1 = none) →
       importCommands classes wt = .error .valueError) := by
  refine ⟨?_, ?_, ?_⟩
  · intro h
    unfold importCommands
    rw [importCommandsAux_bad classes [] h]
  · intro h
    exact importCommandsAux_ok classes [] h
  · intro m hm h
    unfold importCommands
    rw [hm]
    simp only [setWeightAux_missing wt m 0 h]

theorem import_validation_witness :
    importCommands [⟨"Bad", false⟩] [] = .error .keyError ∧
      importCommands [cmdC] [("zzz", (1 : ℚ))] = .error .valueError :=
  ⟨(import_validation [⟨"Bad", false⟩] []).1 ⟨⟨"Bad", false⟩, by simp, rfl⟩,
   (import_validation [cmdC] [("zzz", 1)]).2.2 [("c", cmdC)] rfl
     ⟨("zzz", 1), by simp, by decide⟩⟩

/-- Claim C5, counterexample to the claim as stated: importing two
command classes whose lowercased names are both `dup` raises no
duplicate-name error — the import succeeds and the later class has
silently replaced the earlier one in the commands registry. -/
theorem import_duplicate_names_no_error :
    importCommands [cmdDupA, cmdDupB] [] = .ok ([("dup", cmdDupB)], 0) := by
  rfl

/-- Claim C8: when the post-hook of the command chosen in a step requests
a switch to a registered state X, the step completes against the state
that was current at its start — the command was chosen from that state's
table and the post-hook consulted is that state's — and the switch takes
effect only afterwards: the step returns with X current, so the next
step's command selection draws from X's weight table, not the
originating state's. -/
theorem post_hook_switch_takes_effect_next_step
    (exec : String → Nat → Nat) (d : Dfa) (r : ℚ)
    (sid : Nat) (s0 : StateInst) (cname x : String) (xid : Nat)
    (xinst : StateInst)
    (hcur : d.state = some sid) (hs0 : lookupPool d.pool sid = some s0)
    (hchoose : choose s0.spec.weight r = some cname)
    (hpost : lookupAssoc s0.spec.post cname = some (some x))
    (hx : lookupAssoc d.states x = some xid)
    (hxinst : lookupPool d.pool xid = some xinst) :
    nextStep exec d r
        = .ok { d with ret := exec cname d.ret, state := some xid } ∧
      selectedTable { d with ret := exec cname d.ret, state := some xid }
        = some xinst.spec.weight := by
  constructor
  · simp only [nextStep, hcur, hs0, hchoose, hpost, switchStateTo]
    simp [hx]
  · simp [selectedTable, hxinst]

theorem post_hook_switch_takes_effect_next_step_witness :
    nextStep execBump dfaTwo 0
        = .ok { dfaTwo with ret := execBump "c" dfaTwo.ret, state := some 1 } ∧
      selectedTable { dfaTwo with ret := execBump "c" dfaTwo.ret, state := some 1 }
        = some instS2.spec.weight :=
  post_hook_switch_takes_effect_next_step execBump dfaTwo 0 0 instS1 "c" "s2"
    1 instS2 rfl rfl
    (by norm_num [choose, chooseFrom, totalWeight, instS1, specS1])
    rfl rfl rfl

theorem lookup_updateAssoc_self {α : Type} :
    ∀ (m : List (String × α)) (k : String) (v : α),
    lookupAssoc (updateAssoc m k v) k = some v := by
  intro m
  induction m with
  | nil => intro k v; simp [updateAssoc, lookupAssoc]
  | cons p rest ih =>
    intro k v
    obtain ⟨k', w⟩ := p
    by_cases hk : k' = k
    · simp [updateAssoc, hk, lookupAssoc]
    · simp only [updateAssoc, if_neg hk, lookupAssoc, ih]

theorem lookupPool_append_fresh :
    ∀ (pool : List (Nat × StateInst)) (sid : Nat) (inst : StateInst),
    (∀ p ∈ pool, p.1 ≠ sid) →
    lookupPool (pool ++ [(sid, inst)]) sid = some inst := by
  intro pool
  induction pool with
  | nil => intro sid inst _; simp [lookupPool]
  | cons p rest ih =>
    intro sid inst h
    obtain ⟨k, v⟩ := p
    have hk : k ≠ sid := h (k, v) (List.mem_cons_self _ _)
    simp only [List.cons_append, lookupPool, if_neg hk]
    exact ih sid inst fun q hq => h q (List.mem_cons_of_mem _ hq)

/-- Claim C10: calling `add_state` again with a `State` class whose
lowercased name equals an already-registered name raises no error: the
registry entry is silently rebound to a freshly constructed instance.
If the replaced state was current and `is_start` is not passed again,
`self.state` still references the old, no-longer-registered instance. -/
theorem add_state_rebinds_leaves_current_stale
    (d : Dfa) (cls : StateClass) (cmds : List CommandClass)
    (oldId : Nat) (cm : List (String × CommandClass)) (ws : ℚ)
    (hstate : cls.isState = true)
    (himp : importCommands cmds cls.spec.weight = .ok (cm, ws))
    (hreg : lookupAssoc d.states (pyLower cls.sname) = some oldId)
    (hcur : d.state = some oldId)
    (hold : oldId < d.nextId)
    (hpool : ∀ p ∈ d.pool, p.1 < d.nextId) :
    ∃ d', addState d cls cmds false = .ok d' ∧
      lookupAssoc d'.states (pyLower cls.sname) = some d.nextId ∧
      lookupPool d'.pool d.nextId = some ⟨cls.spec, cm, ws⟩ ∧
      d.nextId ≠ oldId ∧ d'.state = some oldId := by
  refine ⟨{ d with
              states := updateAssoc d.states (pyLower cls.sname) d.nextId
              pool := d.pool ++ [(d.nextId, ⟨cls.spec, cm, ws⟩)]
              nextId := d.nextId + 1 }, ?_, ?_, ?_, ?_, ?_⟩
  · simp [addState, hstate, himp]
  · exact lookup_updateAssoc_self d.states (pyLower cls.sname) d.nextId
  · exact lookupPool_append_fresh d.pool d.nextId _
      fun p hp => Nat.ne_of_lt (hpool p hp)
  · exact Nat.ne_of_gt hold
  · exact hcur

theorem add_state_rebinds_leaves_current_stale_witness :
    ∃ d', addState dfaOne stateClassS1 [cmdC] false = .ok d' ∧
      lookupAssoc d'.states (pyLower stateClassS1.sname)
        = some dfaOne.nextId ∧
      lookupPool d'.pool dfaOne.nextId
        = some ⟨stateClassS1.spec, [("c", cmdC)], 0 + 1⟩ ∧
      dfaOne.nextId ≠ 0 ∧ d'.state = some 0 :=
  add_state_rebinds_leaves_current_stale dfaOne stateClassS1 [cmdC] 0
    [("c", cmdC)] (0 + 1) rfl rfl rfl rfl (by decide)
    (by
      intro p hp
      have hp' : p = (0, instOne) := by
        simpa [dfaOne] using hp
      rw [hp']
      decide)

end Fsm
